import Mathlib

/-!
# A verification development for the `hq` expression evaluator

This file gives a shallow embedding, in Lean 4, of the core of the `hq`
query processor (package `pkg/eval`, with the context type from `pkg/types`
and the AST from `pkg/parser`), together with theorems settling a number of
claims about its behaviour.

Modelling conventions:

* Go's universal datum `any` (one of `nil`, `bool`, `float64`, `string`,
  `[]any`, `map[string]any`) is the inductive type `Value`.  Numbers are
  modelled as rationals (`ℚ`): every input exercised below is exactly
  representable as an IEEE-754 double, and on such inputs Go's `float64`
  arithmetic and comparisons agree with exact rational arithmetic.
* Go's `map[string]any` is modelled as an association list with unique
  keys.  The order of the list is *not* semantically meaningful: Go map
  iteration order is unspecified.  All operations on mappings below are
  order-insensitive except iteration, for which the set of possible
  Go behaviours is modelled separately (`goMapIterPossible`).
* The evaluation context (`types.Context`) holds `MatchingNodes` (modelled
  as `List Value`; the `Path`/`Document` bookkeeping of `CandidateNode` is
  not observable in results) and a `Variables` map.  `Context.Clone` shares
  the `Variables` map between the clone and the original, so there is one
  single mutable variable map for a whole evaluation; it is modelled by
  threading a `VarMap` through evaluation in program order.
* A Go `return nil, err` is `Out.fail`; a Go runtime panic (a crash, which
  no code in the evaluator recovers from) is `Out.panic`.
* The evaluator is total by construction in Lean via a `fuel` parameter
  that decreases at every call; Go's analogue of fuel exhaustion is stack
  exhaustion, also a crash, hence modelled as `Out.panic`.
* Machine-integer truncation (`int64(x)` on a `float64`) is modelled as
  mathematical truncation toward zero; no claim below exercises values
  outside the `int64` range, so wrap-around is irrelevant.
-/

namespace HQ

/-- The universal datum: Go's `any` restricted to the shapes produced by
document parsing and the evaluator (`nil`, `bool`, `float64`, `string`,
`[]any`, `map[string]any`). -/
inductive Value : Type where
  | null : Value
  | bool (b : Bool) : Value
  | num (q : ℚ) : Value
  | str (s : String) : Value
  | arr (xs : List Value) : Value
  | obj (m : List (String × Value)) : Value
deriving Repr

/-- Go's `%T` rendering of the dynamic type of a value, as used in the
evaluator's error messages. -/
def goType : Value → String
  | .null => "<nil>"
  | .bool _ => "bool"
  | .num _ => "float64"
  | .str _ => "string"
  | .arr _ => "[]interface {}"
  | .obj _ => "map[string]interface {}"

/-- Association-list lookup, modelling Go's `m[k]` two-result form. -/
def alistGet (m : List (String × Value)) (k : String) : Option Value :=
  match m with
  | [] => none
  | (k', v) :: rest => if k' = k then some v else alistGet rest k

/-- Association-list update-or-insert, modelling Go's `m[k] = v`. -/
def alistSet (m : List (String × Value)) (k : String) (v : Value) :
    List (String × Value) :=
  match m with
  | [] => [(k, v)]
  | (k', v') :: rest =>
      if k' = k then (k', v) :: rest else (k', v') :: alistSet rest k v

/-- Association-list removal, modelling Go's `delete(m, k)`. -/
def alistDel (m : List (String × Value)) (k : String) :
    List (String × Value) :=
  match m with
  | [] => []
  | (k', v') :: rest =>
      if k' = k then rest else (k', v') :: alistDel rest k

/-- The shared variable map (`Context.Variables`).  `ReadOnlyVariables` is
never populated by the evaluator and is omitted. -/
abbrev VarMap := List (String × Value)

/-- Truncation of a `float64` toward zero on conversion to an integer type,
as in Go's `int64(x)` / `int(x)`. -/
def truncToInt (q : ℚ) : Int :=
  if q < 0 then ⌈q⌉ else ⌊q⌋

/-- `toNumber` from `evaluator.go`: values of numeric dynamic type convert,
everything else does not.  (In this model all numbers are `Value.num`.) -/
def toNumber : Value → Option ℚ
  | .num q => some q
  | _ => none

/-- `isTruthy` from `evaluator.go`: `null` and `false` are falsy, everything
else is truthy. -/
def isTruthy : Value → Bool
  | .null => false
  | .bool b => b
  | _ => true

/-- `equals` from `evaluator.go`.  Note the fall-through: lists and mappings
reach the final `return false`, so composite values never compare equal. -/
def equals (left right : Value) : Bool :=
  match left, right with
  | .null, .null => true
  | .null, _ => false
  | _, .null => false
  | .num l, r =>
      match toNumber r with
      | some rq => l == rq
      | none => false
  | .str l, .str r => l == r
  | .str _, _ => false
  | .bool l, .bool r => l == r
  | .bool _, _ => false
  | _, _ => false

/-- The outcome of a (sub-)evaluation: a value sequence, a Go error return,
or a Go runtime panic. -/
inductive Out : Type where
  | ok (vs : List Value) : Out
  | fail (msg : String) : Out
  | panic (msg : String) : Out
deriving Repr

/-- Outcome of applying a binary operator to two values. -/
inductive ValOut : Type where
  | ok (v : Value) : ValOut
  | fail (msg : String) : ValOut
  | panic (msg : String) : ValOut
deriving Repr

/-- `add` from `evaluator.go`: null identity, string concat, numeric add,
array concat, shallow object merge (right side wins). -/
def add (left right : Value) : ValOut :=
  match left, right with
  | .null, r => .ok r
  | l, .null => .ok l
  | .str l, .str r => .ok (.str (l ++ r))
  | .num l, .num r => .ok (.num (l + r))
  | .arr l, .arr r => .ok (.arr (l ++ r))
  | .obj l, .obj r => .ok (.obj (r.foldl (fun acc kv => alistSet acc kv.1 kv.2) l))
  | l, r => .fail ("cannot add " ++ goType l ++ " and " ++ goType r)

/-- `subtract` from `evaluator.go`: numeric subtraction, or array difference
(remove every left element that `equals` some right element). -/
def subtract (left right : Value) : ValOut :=
  match left, right with
  | .num l, .num r => .ok (.num (l - r))
  | .arr l, .arr r =>
      .ok (.arr (l.filter (fun lv => !(r.any (fun rv => equals lv rv)))))
  | l, r => .fail ("cannot subtract " ++ goType r ++ " from " ++ goType l)

/-- `deepMerge` from `evaluator.go` (recursive object merge for `*`): the
overlay entries are folded into the base; when both sides hold an object at
a key, the objects are merged recursively, otherwise the overlay entry
wins. -/
def deepMerge (base overlay : List (String × Value)) : List (String × Value) :=
  match overlay with
  | [] => base
  | (k, v) :: rest =>
      let step :=
        match alistGet base k, v with
        | some (.obj baseObj), .obj overlayObj =>
            alistSet base k (.obj (deepMerge baseObj overlayObj))
        | _, _ => alistSet base k v
      deepMerge step rest
termination_by sizeOf overlay
decreasing_by
  all_goals simp_wf <;> omega

/-- `multiply` from `evaluator.go`: numeric multiply, string repetition
(`n` truncated toward zero, `n ≤ 0` gives the empty string), object deep
merge. -/
def multiply (left right : Value) : ValOut :=
  match left, right with
  | .num l, .num r => .ok (.num (l * r))
  | .str l, .num r =>
      let n := truncToInt r
      if n ≤ 0 then .ok (.str "")
      else .ok (.str (String.join (List.replicate n.toNat l)))
  | .obj l, .obj r => .ok (.obj (deepMerge l r))
  | l, r => .fail ("cannot multiply " ++ goType l ++ " and " ++ goType r)

/-- `divide` from `evaluator.go`: numeric division, guarded against a zero
divisor. -/
def divide (left right : Value) : ValOut :=
  match left, right with
  | .num l, .num r =>
      if r = 0 then .fail "division by zero"
      else .ok (.num (l / r))
  | l, r => .fail ("cannot divide " ++ goType l ++ " by " ++ goType r)

/-- `modulo` from `evaluator.go`:

    if rn == 0 { return nil, fmt.Errorf("modulo by zero") }
    return float64(int64(ln) % int64(rn)), nil

The guard tests the `float64` divisor before truncation; if the divisor is
nonzero but truncates to zero (any `0 < |r| < 1`), the Go `%` operator on
`int64` panics at run time with "integer divide by zero".  Go's `%` on
integers truncates toward zero, i.e. `Int.tmod`. -/
def modulo (left right : Value) : ValOut :=
  match left, right with
  | .num l, .num r =>
      if r = 0 then .fail "modulo by zero"
      else
        if truncToInt r = 0 then .panic "runtime error: integer divide by zero"
        else .ok (.num ((Int.tmod (truncToInt l) (truncToInt r) : Int) : ℚ))
  | l, r => .fail ("cannot modulo " ++ goType l ++ " by " ++ goType r)

/-- `lessThan` from `evaluator.go`: numbers numerically, strings
lexicographically, anything else errors. -/
def lessThan (left right : Value) : Except String Bool :=
  match left, right with
  | .num l, .num r => .ok (decide (l < r))
  | .str l, .str r => .ok (decide (l < r))
  | l, r => .error ("cannot compare " ++ goType l ++ " and " ++ goType r)

/-- `greaterThan` from `evaluator.go`. -/
def greaterThan (left right : Value) : Except String Bool :=
  match left, right with
  | .num l, .num r => .ok (decide (l > r))
  | .str l, .str r => .ok (decide (l > r))
  | l, r => .error ("cannot compare " ++ goType l ++ " and " ++ goType r)

/-- The binary operators dispatched by `applyBinaryOp` in `evaluator.go`. -/
inductive BOp : Type where
  | add | sub | mul | div | mod
  | eq | ne | lt | gt | le | ge
  | and | or
deriving Repr, DecidableEq

/-- The operator's surface spelling (the parser's `Op` string), used in the
"empty operand for %s" error message. -/
def BOp.sym : BOp → String
  | .and => "and"
  | .or => "or"
  | .eq => "=="
  | .lt => "<"
  | .add => "+"
  | .ne => "!="
  | .sub => "-"
  | .gt => ">"
  | .mul => "*"
  | .le => "<="
  | .div => "/"
  | .ge => ">="
  | .mod => "%"

/-- `applyBinaryOp` from `evaluator.go`.  Both operands have already been
evaluated by the caller (`evalBinaryOp`); in particular `and`/`or` receive
fully evaluated operands and merely combine their truthiness. -/
def applyBinaryOp (op : BOp) (left right : Value) : ValOut :=
  match op with
  | .add => add left right
  | .sub => subtract left right
  | .mul => multiply left right
  | .div => divide left right
  | .mod => modulo left right
  | .eq => .ok (.bool (equals left right))
  | .ne => .ok (.bool (!equals left right))
  | .lt =>
      match lessThan left right with
      | .ok b => .ok (.bool b)
      | .error e => .fail e
  | .gt =>
      match greaterThan left right with
      | .ok b => .ok (.bool b)
      | .error e => .fail e
  | .le =>
      match lessThan left right with
      | .ok b => .ok (.bool (b || equals left right))
      | .error e => .fail e
  | .ge =>
      match greaterThan left right with
      | .ok b => .ok (.bool (b || equals left right))
      | .error e => .fail e
  | .and => .ok (.bool (isTruthy left && isTruthy right))
  | .or => .ok (.bool (isTruthy left || isTruthy right))

/-- `accessField` from `evaluator.go`:

    if value == nil { return nil }
    switch v := value.(type) {
    case map[string]any: if val, ok := v[field]; ok { return val }; return nil
    default: return nil
    }

Every non-mapping (including numbers, strings, booleans and lists) takes
the `default` branch and yields `nil`; there is no type error. -/
def accessField (value : Value) (field : String) : Value :=
  match value with
  | .obj m =>
      match alistGet m field with
      | some v => v
      | none => .null
  | _ => .null

/-- `accessIndex` from `evaluator.go`: `nil` and non-arrays give `nil`,
negative indices count from the end, out-of-range gives `nil`. -/
def accessIndex (value : Value) (index : Int) : Value :=
  match value with
  | .arr xs =>
      let idx := if index < 0 then (xs.length : Int) + index else index
      if idx < 0 ∨ (xs.length : Int) ≤ idx then .null
      else xs.getD idx.toNat .null
  | _ => .null

/-- `iterateValue` from `evaluator.go`.  For a mapping the Go code ranges
over a `map[string]any`, whose order is unspecified; this function fixes
the association-list order as one admissible behaviour (see
`goMapIterPossible` for the set of all admissible behaviours). -/
def iterateValue (v : Value) : Except String (List Value) :=
  match v with
  | .null => .error "cannot iterate over null"
  | .arr xs => .ok xs
  | .obj m => .ok (m.map Prod.snd)
  | other => .error ("cannot iterate over " ++ goType other)

/-- The set of emission orders Go's `range` over a `map[string]any` may
produce: the values along any permutation of the entries. -/
def goMapIterPossible (m : List (String × Value)) (out : List Value) : Prop :=
  ∃ p : List (String × Value), List.Perm p m ∧ out = p.map Prod.snd

/-- The expression AST (`pkg/parser`), restricted to the node kinds and
built-in functions exercised by the claims under verification.  Built-in
calls dispatched by name in `evalFunctionCall` appear as dedicated
constructors (`lengthFn`, `emptyFn`, `errorFn`, `delFn`, `delpathsFn`);
an `Option Expr` source mirrors the nullable `From` pointer of the Go
navigation nodes. -/
inductive Expr : Type where
  | identity : Expr
  | lit (v : Value) : Expr
  | field (name : String) (src : Option Expr) : Expr
  | idx (i : Int) (src : Option Expr) : Expr
  | iter (src : Option Expr) : Expr
  | pipe (l r : Expr) : Expr
  | comma (es : List Expr) : Expr
  | binop (op : BOp) (l r : Expr) : Expr
  | varRef (name : String) : Expr
  | bind (e : Expr) (varName : String) (body : Expr) : Expr
  | arrayCons (inner : Option Expr) : Expr
  | lengthFn : Expr
  | emptyFn : Expr
  | errorFn (arg : Expr) : Expr
  | delFn (args : List Expr) : Expr
  | delpathsFn (arg : Expr) : Expr
deriving Repr

/-- A short node-kind name, standing in for Go's `%T` on AST nodes in the
error message of `extractPath`. -/
def exprKind : Expr → String
  | .identity => "*parser.IdentityNode"
  | .lit _ => "*parser.LiteralNode"
  | .field _ _ => "*parser.FieldAccessNode"
  | .idx _ _ => "*parser.IndexAccessNode"
  | .iter _ => "*parser.IteratorNode"
  | .pipe _ _ => "*parser.PipeNode"
  | .comma _ => "*parser.CommaNode"
  | .binop _ _ _ => "*parser.BinaryOpNode"
  | .varRef _ => "*parser.VariableNode"
  | .bind _ _ _ => "*parser.VariableBindNode"
  | .arrayCons _ => "*parser.ArrayConstructNode"
  | _ => "*parser.FunctionCallNode"

mutual

/-- `deepCopy` from `evaluator.go`: maps and slices are copied recursively,
primitives are returned as-is. -/
def deepCopyV : Value → Value
  | .obj m => .obj (copyEntries m)
  | .arr xs => .arr (copyElems xs)
  | v => v

/-- The element loop of `copySlice`. -/
def copyElems : List Value → List Value
  | [] => []
  | v :: rest => deepCopyV v :: copyElems rest

/-- The entry loop of `copyMap`. -/
def copyEntries : List (String × Value) → List (String × Value)
  | [] => []
  | (k, v) :: rest => (k, deepCopyV v) :: copyEntries rest

end

/-- `isIteratorPath` from `evaluator.go`: does the navigation chain contain
an iterator segment? -/
def isIteratorPath : Expr → Bool
  | .iter _ => true
  | .field _ (some src) => isIteratorPath src
  | .field _ none => false
  | .idx _ (some src) => isIteratorPath src
  | .idx _ none => false
  | _ => false

/-- `extractPath` from `evaluator.go`: walk the `From` chain of a
field/index navigation, accumulating string and integer path entries;
any other node kind is an error.  (Path entries are carried as `Value`s,
matching the untyped `[]any` paths of the source.) -/
def extractPath : Expr → Except String (List Value)
  | .identity => .ok []
  | .field name src =>
      match src with
      | none => .ok [.str name]
      | some e =>
          match extractPath e with
          | .ok p => .ok (p ++ [.str name])
          | .error msg => .error msg
  | .idx i src =>
      match src with
      | none => .ok [.num (i : ℚ)]
      | some e =>
          match extractPath e with
          | .ok p => .ok (p ++ [.num (i : ℚ)])
          | .error msg => .error msg
  | e => .error ("cannot extract path from " ++ exprKind e)

mutual

/-- `flattenDelPaths` from `evaluator.go`: comma expressions are flattened
into their component path expressions. -/
def flattenDelPaths : Expr → List Expr
  | .comma es => flattenDelList es
  | e => [e]

/-- List worker for `flattenDelPaths`. -/
def flattenDelList : List Expr → List Expr
  | [] => []
  | e :: rest => flattenDelPaths e ++ flattenDelList rest

end

/-- `deletePath` from `evaluator.go`.  Path entries are normalized as in
`normalizePathElement` (`float64` truncates to `int`, strings stay, any
other kind reaches the `default` branch and errors); deleting at a
non-matching container is a no-op, out-of-range indices are no-ops, and
the empty path yields `nil`. -/
def deletePathV (value : Value) : List Value → Except String Value
  | [] => .ok .null
  | p :: rest =>
    match rest with
    | [] =>
      match p with
      | .str k =>
          match value with
          | .obj m => .ok (.obj (alistDel m k))
          | v => .ok v
      | .num q =>
          match value with
          | .arr xs =>
              let len : Int := xs.length
              let key := truncToInt q
              let idx := if key < 0 then len + key else key
              if idx < 0 ∨ len ≤ idx then .ok (.arr xs)
              else .ok (.arr (xs.take idx.toNat ++ xs.drop (idx.toNat + 1)))
          | v => .ok v
      | _ => .error "invalid path element type"
    | _ :: _ =>
      match p with
      | .str k =>
          match value with
          | .obj m =>
              match alistGet m k with
              | none => .ok (.obj m)
              | some child =>
                  match deletePathV child rest with
                  | .ok updated => .ok (.obj (alistSet m k updated))
                  | .error e => .error e
          | v => .ok v
      | .num q =>
          match value with
          | .arr xs =>
              let len : Int := xs.length
              let key := truncToInt q
              let idx := if key < 0 then len + key else key
              if idx < 0 ∨ len ≤ idx then .ok (.arr xs)
              else
                match deletePathV (xs.getD idx.toNat .null) rest with
                | .ok updated => .ok (.arr (xs.set idx.toNat updated))
                | .error e => .error e
          | v => .ok v
      | _ => .error "invalid path element type"

/-- `evalLength`'s per-value case analysis (`functions.go`): list, string
(bytes) and mapping sizes, `nil → 0`, and an error for numbers and
booleans. -/
def lengthOf : Value → Except String ℚ
  | .arr xs => .ok (xs.length : ℚ)
  | .str s => .ok (s.utf8ByteSize : ℚ)
  | .obj m => .ok (m.length : ℚ)
  | .null => .ok 0
  | v => .error ("cannot get length of " ++ goType v)

/-- The node loop of `evalLength`. -/
def lengthAll : List Value → Out
  | [] => .ok []
  | v :: rest =>
      match lengthOf v with
      | .ok n =>
          match lengthAll rest with
          | .ok more => .ok (.num n :: more)
          | o => o
      | .error m => .fail m

/-- The source loop of `evalIterator`. -/
def iterAll : List Value → Out
  | [] => .ok []
  | v :: rest =>
      match iterateValue v with
      | .ok items =>
          match iterAll rest with
          | .ok more => .ok (items ++ more)
          | o => o
      | .error m => .fail m

/-- The `.[]`-clearing branch of `evalDelIterator` (`evaluator.go`): lists
and mappings are emptied, anything else is unchanged. -/
def delIterAll : Value → Value
  | .arr _ => .arr []
  | .obj _ => .obj []
  | v => v

/-- `evalDelIterator` from `evaluator.go`: only a bare iterator (`.[]`,
`From` nil or identity) clears the container; any more complex iterator
expression falls through and leaves the value unchanged. -/
def evalDelIterator (e : Expr) (value : Value) : Value :=
  match e with
  | .iter none => delIterAll value
  | .iter (some .identity) => delIterAll value
  | _ => value

/-- The reverse-order deletion loop of `evalDelpaths` (`evaluator.go`):
`for i := len(pathsArr)-1; i >= 0; i--`, skipping non-array entries; the
error of `deletePath` is discarded while its `nil` result value is kept
(so an invalid path element wipes the whole value to `nil`).  The caller
passes the path list already reversed. -/
def delpathsApply (v : Value) : List Value → Value
  | [] => v
  | p :: rest =>
      match p with
      | .arr pathArr =>
          match deletePathV v pathArr with
          | .ok v' => delpathsApply v' rest
          | .error _ => delpathsApply .null rest
      | _ => delpathsApply v rest

/-- The evaluation function type threaded into the loop helpers below;
instantiated with `eval fuel`. -/
abbrev EvalFn := Expr → List Value → VarMap → Out × VarMap

/-- The per-left-value loop of `evalPipe` (`evaluator.go`): `newCtx :=
ctx.Clone()` shares the variable map, so variable mutations persist from
one iteration to the next; an error aborts the loop. -/
def evalPipeFold (ev : EvalFn) (r : Expr) :
    List Value → List Value → VarMap → Out × VarMap
  | [], acc, vars => (.ok acc, vars)
  | lv :: rest, acc, vars =>
      match ev r [lv] vars with
      | (.ok rs, v') => evalPipeFold ev r rest (acc ++ rs) v'
      | o => o

/-- The operand loop of `evalComma` (`evaluator.go`). -/
def evalCommaFold (ev : EvalFn) :
    List Expr → List Value → List Value → VarMap → Out × VarMap
  | [], _, acc, vars => (.ok acc, vars)
  | e :: rest, cur, acc, vars =>
      match ev e cur vars with
      | (.ok vs, v') => evalCommaFold ev rest cur (acc ++ vs) v'
      | o => o

/-- The inner loop of `evalVariableBind` (`evaluator.go`): for each value
produced by the bound expression, `bodyCtx := ctx.Clone()` shares the
variable map with the outer context, so `bodyCtx.Variables[name] = value`
writes into the one shared map before the body is evaluated. -/
def evalBindInner (ev : EvalFn) (varName : String) (body : Expr) (node : Value) :
    List Value → List Value → VarMap → Out × VarMap
  | [], acc, vars => (.ok acc, vars)
  | er :: rest, acc, vars =>
      match ev body [node] (alistSet vars varName er) with
      | (.ok bs, v2) => evalBindInner ev varName body node rest (acc ++ bs) v2
      | o => o

/-- The outer (per matching node) loop of `evalVariableBind`. -/
def evalBindOuter (ev : EvalFn) (e : Expr) (varName : String) (body : Expr) :
    List Value → List Value → VarMap → Out × VarMap
  | [], acc, vars => (.ok acc, vars)
  | node :: rest, acc, vars =>
      match ev e [node] vars with
      | (.ok exprResults, v1) =>
          match evalBindInner ev varName body node exprResults [] v1 with
          | (.ok bs, v2) => evalBindOuter ev e varName body rest (acc ++ bs) v2
          | o => o
      | o => o

/-- The array filter loop of `evalDelPipe` (`evaluator.go`): an element is
kept when the filter errors (error swallowed) or selects nothing, and
dropped when the filter selects something. -/
def delPipeFilterArr (ev : EvalFn) (pr : Expr) :
    List Value → List Value → VarMap → List Value × VarMap
  | [], acc, vars => (acc, vars)
  | elem :: rest, acc, vars =>
      match ev pr [elem] vars with
      | (.ok selected, v') =>
          if selected.isEmpty then delPipeFilterArr ev pr rest (acc ++ [elem]) v'
          else delPipeFilterArr ev pr rest acc v'
      | (_, v') => delPipeFilterArr ev pr rest (acc ++ [elem]) v'

/-- The mapping filter loop of `evalDelPipe`. -/
def delPipeFilterObj (ev : EvalFn) (pr : Expr) :
    List (String × Value) → List (String × Value) → VarMap →
    List (String × Value) × VarMap
  | [], acc, vars => (acc, vars)
  | (k, elem) :: rest, acc, vars =>
      match ev pr [elem] vars with
      | (.ok selected, v') =>
          if selected.isEmpty then delPipeFilterObj ev pr rest (acc ++ [(k, elem)]) v'
          else delPipeFilterObj ev pr rest acc v'
      | (_, v') => delPipeFilterObj ev pr rest (acc ++ [(k, elem)]) v'

/-- The filtering body of `evalDelPipe`, applied when the pipe's left side
is a bare iterator. -/
def evalDelPipeBody (ev : EvalFn) (pr : Expr) (value : Value) (vars : VarMap) :
    Value × VarMap :=
  match value with
  | .arr xs =>
      let (kept, v') := delPipeFilterArr ev pr xs [] vars
      (.arr kept, v')
  | .obj m =>
      let (kept, v') := delPipeFilterObj ev pr m [] vars
      (.obj kept, v')
  | v => (v, vars)

/-- `evalDelPipe` from `evaluator.go`: only a `.[] | filter` shape filters
elements; any other pipe shape returns the value unchanged (and the Go
function never returns an error). -/
def evalDelPipe (ev : EvalFn) (pl pr : Expr) (value : Value) (vars : VarMap) :
    Value × VarMap :=
  match pl with
  | .iter none => evalDelPipeBody ev pr value vars
  | .iter (some .identity) => evalDelPipeBody ev pr value vars
  | _ => (value, vars)

/-- The per-path loop of `evalDel` (`evaluator.go`): paths are processed in
the order supplied.  Pipe shapes are filtered via `evalDelPipe`, iterator
paths via `evalDelIterator`, and plain paths via `extractPath` plus
`deletePath`; an `extractPath` failure aborts with "del: invalid path",
while a `deletePath` failure is discarded (keeping its `nil` result
value). -/
def evalDelPathList (ev : EvalFn) :
    List Expr → Value → VarMap → ValOut × VarMap
  | [], modified, vars => (.ok modified, vars)
  | pathExpr :: rest, modified, vars =>
      match pathExpr with
      | .pipe pl pr =>
          let (modified', v1) := evalDelPipe ev pl pr modified vars
          evalDelPathList ev rest modified' v1
      | other =>
          if isIteratorPath other then
            evalDelPathList ev rest (evalDelIterator other modified) vars
          else
            match extractPath other with
            | .error msg => (.fail ("del: invalid path: " ++ msg), vars)
            | .ok path =>
                match deletePathV modified path with
                | .ok m' => evalDelPathList ev rest m' vars
                | .error _ => evalDelPathList ev rest .null vars

/-- The per-argument loop of `evalDel`: each argument's comma expression is
flattened into individual paths which are then processed in order. -/
def evalDelArgs (ev : EvalFn) :
    List Expr → Value → VarMap → ValOut × VarMap
  | [], modified, vars => (.ok modified, vars)
  | arg :: rest, modified, vars =>
      match evalDelPathList ev (flattenDelPaths arg) modified vars with
      | (.ok modified', v1) => evalDelArgs ev rest modified' v1
      | o => o

/-- The per-node loop of `evalDel`: each matching node is deep-copied, all
path arguments are applied, and the modified value is emitted. -/
def evalDelNodes (ev : EvalFn) (args : List Expr) :
    List Value → List Value → VarMap → Out × VarMap
  | [], acc, vars => (.ok acc, vars)
  | node :: rest, acc, vars =>
      match evalDelArgs ev args (deepCopyV node) vars with
      | (.ok modified, v1) => evalDelNodes ev args rest (acc ++ [modified]) v1
      | (.fail m, v1) => (.fail m, v1)
      | (.panic m, v1) => (.panic m, v1)

/-- The per-node loop of `evalDelpaths` (`evaluator.go`): the paths
expression is evaluated against each node; an empty result skips the node,
a non-array first result fails, and otherwise the paths are applied in
reverse order to a deep copy of the node. -/
def evalDelpathsNodes (ev : EvalFn) (pathsExpr : Expr) :
    List Value → List Value → VarMap → Out × VarMap
  | [], acc, vars => (.ok acc, vars)
  | node :: rest, acc, vars =>
      match ev pathsExpr [node] vars with
      | (.ok pathsResults, v1) =>
          match pathsResults with
          | [] => evalDelpathsNodes ev pathsExpr rest acc v1
          | p0 :: _ =>
              match p0 with
              | .arr pathsArr =>
                  let modified := delpathsApply (deepCopyV node) pathsArr.reverse
                  evalDelpathsNodes ev pathsExpr rest (acc ++ [modified]) v1
              | _ => (.fail "delpaths: paths must be an array of arrays", v1)
      | o => o

/-- The evaluator (`evaluate` and the `eval*` functions of `evaluator.go`
and `functions.go`), threading the single shared variable map in program
order.  The `fuel` parameter bounds the call depth; running out of fuel
models Go stack exhaustion (a crash). -/
def eval : Nat → Expr → List Value → VarMap → Out × VarMap
  | 0, _, _, vars => (.panic "stack exhausted", vars)
  | fuel+1, e, cur, vars =>
    match e with
    | .identity => (.ok cur, vars)
    | .lit v => (.ok [v], vars)
    | .field name src =>
        match src with
        | none => (.ok (cur.map (fun s => accessField s name)), vars)
        | some e' =>
            match eval fuel e' cur vars with
            | (.ok sources, v1) =>
                (.ok (sources.map (fun s => accessField s name)), v1)
            | o => o
    | .idx i src =>
        match src with
        | none => (.ok (cur.map (fun s => accessIndex s i)), vars)
        | some e' =>
            match eval fuel e' cur vars with
            | (.ok sources, v1) =>
                (.ok (sources.map (fun s => accessIndex s i)), v1)
            | o => o
    | .iter src =>
        match src with
        | none => (iterAll cur, vars)
        | some e' =>
            match eval fuel e' cur vars with
            | (.ok sources, v1) => (iterAll sources, v1)
            | o => o
    | .pipe l r =>
        match eval fuel l cur vars with
        | (.ok ls, v1) => evalPipeFold (eval fuel) r ls [] v1
        | o => o
    | .comma es => evalCommaFold (eval fuel) es cur [] vars
    | .binop op l r =>
        match eval fuel l cur vars with
        | (.ok ls, v1) =>
            match eval fuel r cur v1 with
            | (.ok rs, v2) =>
                match ls, rs with
                | [], _ => (.fail ("empty operand for " ++ op.sym), v2)
                | _ :: _, [] => (.fail ("empty operand for " ++ op.sym), v2)
                | lv :: _, rv :: _ =>
                    match applyBinaryOp op lv rv with
                    | .ok v => (.ok [v], v2)
                    | .fail m => (.fail m, v2)
                    | .panic m => (.panic m, v2)
            | o => o
        | o => o
    | .varRef name =>
        match alistGet vars name with
        | some v => (.ok [v], vars)
        | none => (.fail ("undefined variable: $" ++ name), vars)
    | .bind e' varName body => evalBindOuter (eval fuel) e' varName body cur [] vars
    | .arrayCons none => (.ok [.arr []], vars)
    | .arrayCons (some inner) =>
        match eval fuel inner cur vars with
        | (.ok vs, v1) => (.ok [.arr vs], v1)
        | o => o
    | .lengthFn => (lengthAll cur, vars)
    | .emptyFn => (.ok [], vars)
    | .errorFn arg =>
        match eval fuel arg cur vars with
        | (.ok msgs, v1) =>
            match msgs with
            | .str m :: _ => (.fail m, v1)
            | _ => (.fail "error", v1)
        | o => o
    | .delFn args => evalDelNodes (eval fuel) args cur [] vars
    | .delpathsFn arg => evalDelpathsNodes (eval fuel) arg cur [] vars

/-- The public entry point `Evaluate` (minus parsing): a fresh context with
the input as the single matching node and an empty variable map. -/
def run (fuel : Nat) (e : Expr) (input : Value) : Out :=
  (eval fuel e [input] []).1

mutual

/-- `deepCopy` is semantically the identity on values (it rebuilds the
tree); its purpose in Go is to sever aliasing, which the heap model below
accounts for. -/
theorem deepCopyV_eq : ∀ v : Value, deepCopyV v = v
  | .null => rfl
  | .bool _ => rfl
  | .num _ => rfl
  | .str _ => rfl
  | .arr xs => by rw [deepCopyV, copyElems_eq xs]
  | .obj m => by rw [deepCopyV, copyEntries_eq m]

/-- `copySlice` is semantically the identity. -/
theorem copyElems_eq : ∀ xs : List Value, copyElems xs = xs
  | [] => rfl
  | v :: rest => by rw [copyElems, deepCopyV_eq v, copyElems_eq rest]

/-- `copyMap` is semantically the identity. -/
theorem copyEntries_eq : ∀ m : List (String × Value), copyEntries m = m
  | [] => rfl
  | (k, v) :: rest => by rw [copyEntries, deepCopyV_eq v, copyEntries_eq rest]

end

/-- C1: variable bindings are not lexically scoped.  `Context.Clone` shares
the `Variables` map, so the write performed by `expr as $v | body` persists
after the binding form finishes.  Evaluating `(1 as $v | .), $v` on input
`null` yields `[null, 1]` — the sibling comma operand sees `$v` — where
lexical scoping would make `$v` unbound there ("undefined variable: $v").
Likewise `1 as $v | ((2 as $v | .) | $v)` yields `[2]`: the nested
rebinding overwrites the value the outer scope sees (lexical scoping would
give `[1]`). -/
theorem c1_binding_leaks_to_outer_scope :
    run 10 (.comma [.bind (.lit (.num 1)) "v" .identity, .varRef "v"]) .null
      = .ok [.null, .num 1]
  ∧ run 10 (.bind (.lit (.num 1)) "v"
        (.pipe (.bind (.lit (.num 2)) "v" .identity) (.varRef "v"))) .null
      = .ok [.num 2]
  ∧ (Out.ok [Value.null, Value.num 1] ≠ Out.fail "undefined variable: $v")
  ∧ (Out.ok [Value.num 2] ≠ Out.ok [Value.num 1]) :=
  ⟨by rfl, by rfl, by simp, by simp⟩

/-- C3 counterexample: field access `.foo` (not under `?`) on the number
`5` yields `null` rather than failing with a type error — `accessField`'s
`default` branch returns `nil` for every non-mapping. -/
theorem c3_field_access_on_number_is_null :
    run 10 (.field "foo" (some .identity)) (.num 5) = .ok [.null]
  ∧ (∀ msg, Out.ok [Value.null] ≠ Out.fail msg)
  ∧ run 10 (.field "foo" (some .identity)) (.str "s") = .ok [.null]
  ∧ run 10 (.field "foo" (some .identity)) (.bool true) = .ok [.null]
  ∧ run 10 (.field "foo" (some .identity)) (.arr []) = .ok [.null] :=
  ⟨by rfl, by simp, by rfl, by rfl, by rfl⟩

/-- C3 amended: field access is null-propagating on *every* type: a
mapping without the field, `null`, and every other type (number, string,
boolean, list) all yield `null`; no type error is ever raised. -/
theorem c3_field_access_null_on_every_type :
    (∀ (fuel : Nat) (f : String) (cur : List Value) (vars : VarMap),
      eval (fuel + 1) (.field f none) cur vars
        = (.ok (cur.map (fun v => accessField v f)), vars))
  ∧ (∀ (f : String) (m : List (String × Value)),
      accessField (.obj m) f
        = match alistGet m f with | some v => v | none => .null)
  ∧ (∀ f, accessField .null f = .null)
  ∧ (∀ f (q : ℚ), accessField (.num q) f = .null)
  ∧ (∀ f s, accessField (.str s) f = .null)
  ∧ (∀ f b, accessField (.bool b) f = .null)
  ∧ (∀ f xs, accessField (.arr xs) f = .null) :=
  ⟨fun _ _ _ _ => rfl, fun _ _ => rfl, fun _ => rfl, fun _ _ => rfl,
   fun _ _ => rfl, fun _ _ => rfl, fun _ _ => rfl⟩

/-- C4 counterexample: `==` is not structural on composites.  Two lists
with pairwise-equal elements compare *false*: `equals` has no list or
mapping case and falls through to `return false`, so `[1] == [1]` yields
`false` (and `[1] != [1]` yields `true`). -/
theorem c4_equal_lists_compare_false :
    run 10 (.binop .eq (.lit (.arr [.num 1])) (.lit (.arr [.num 1]))) .null
      = .ok [.bool false]
  ∧ run 10 (.binop .ne (.lit (.arr [.num 1])) (.lit (.arr [.num 1]))) .null
      = .ok [.bool true]
  ∧ run 10 (.binop .eq (.lit (.obj [("a", .num 1)])) (.lit (.obj [("a", .num 1)]))) .null
      = .ok [.bool false]
  ∧ (Out.ok [Value.bool false] ≠ Out.ok [Value.bool true]) :=
  ⟨by rfl, by rfl, by rfl, by simp⟩

/-- C4 amended: `==` is structural on scalars only — `null` equals only
`null`, numbers compare numerically, strings byte-for-byte, booleans by
value — while any comparison with a list or mapping on either side returns
`false` (even for structurally identical composites); `!=` is the
negation. -/
theorem c4_equality_scalar_structural :
    (∀ (fuel : Nat) (l r input : Value),
       run (fuel + 2) (.binop .eq (.lit l) (.lit r)) input
         = .ok [.bool (equals l r)])
  ∧ (∀ (fuel : Nat) (l r input : Value),
       run (fuel + 2) (.binop .ne (.lit l) (.lit r)) input
         = .ok [.bool (!equals l r)])
  ∧ (∀ xs r, equals (.arr xs) r = false)
  ∧ (∀ l xs, equals l (.arr xs) = false)
  ∧ (∀ m r, equals (.obj m) r = false)
  ∧ (∀ l m, equals l (.obj m) = false)
  ∧ (∀ a b : ℚ, equals (.num a) (.num b) = (a == b))
  ∧ (∀ a b : String, equals (.str a) (.str b) = (a == b))
  ∧ (∀ a b : Bool, equals (.bool a) (.bool b) = (a == b))
  ∧ equals .null .null = true :=
  ⟨fun _ _ _ _ => rfl, fun _ _ _ _ => rfl,
   fun xs r => by cases r <;> rfl,
   fun l xs => by cases l <;> rfl,
   fun m r => by cases r <;> rfl,
   fun l m => by cases l <;> rfl,
   fun _ _ => rfl, fun _ _ => rfl, fun _ _ => rfl, rfl⟩

/-- C5: `length` diverges from the claim (and from the repository's own
test scenarios "null length → null" and "number absolute value") on two
inputs: `evalLength` maps `nil` to `0` (not `null`) and has no numeric
case, so a number input fails with "cannot get length" instead of
returning its absolute value.  The list/string/mapping counts of the claim
do hold. -/
theorem c5_length_null_and_number_divergence :
    run 10 .lengthFn .null = .ok [.num 0]
  ∧ (Out.ok [Value.num 0] ≠ Out.ok [Value.null])
  ∧ run 10 .lengthFn (.num (-42)) = .fail "cannot get length of float64"
  ∧ (∀ msg, Out.fail msg ≠ Out.ok [Value.num 42])
  ∧ run 10 .lengthFn (.arr [.null, .null]) = .ok [.num 2]
  ∧ run 10 .lengthFn (.str "abc") = .ok [.num 3]
  ∧ run 10 .lengthFn (.obj [("a", .null)]) = .ok [.num 1] :=
  ⟨by rfl, by simp, by rfl, by simp, by rfl, by rfl, by rfl⟩

/-- C7 counterexample: `and` does not short-circuit.  `evalBinaryOp`
evaluates both operands before dispatching to `applyBinaryOp`, so
`false and error("x")` propagates the error instead of returning `false`
(and symmetrically for a truthy left of `or`). -/
theorem c7_false_and_error_raises :
    run 10 (.binop .and (.lit (.bool false)) (.errorFn (.lit (.str "x")))) .null
      = .fail "x"
  ∧ run 10 (.binop .or (.lit (.bool true)) (.errorFn (.lit (.str "x")))) .null
      = .fail "x"
  ∧ (Out.fail "x" ≠ Out.ok [Value.bool false])
  ∧ (Out.fail "x" ≠ Out.ok [Value.bool true]) :=
  ⟨by rfl, by rfl, by simp, by simp⟩

/-- C8: the claim is right that `%` truncates both operands to 64-bit
integers and fails cleanly on a zero divisor, but the code crashes (Go
runtime panic "integer divide by zero") for every nonzero divisor with
`0 < |r| < 1`: `modulo` checks `rn == 0` on the `float64` *before*
truncating, so `1 % 0.5` reaches `int64(1) % int64(0.5) = 1 % 0`.  The
normal cases behave as claimed (`17 % 5 = 2`, `-7 % 2 = -1`). -/
theorem c8_modulo_panics_on_fractional_divisor :
    run 10 (.binop .mod (.lit (.num 1)) (.lit (.num (1/2)))) .null
      = .panic "runtime error: integer divide by zero"
  ∧ run 10 (.binop .mod (.lit (.num 1)) (.lit (.num 0))) .null
      = .fail "modulo by zero"
  ∧ run 10 (.binop .mod (.lit (.num 17)) (.lit (.num 5))) .null = .ok [.num 2]
  ∧ run 10 (.binop .mod (.lit (.num (-7))) (.lit (.num 2))) .null = .ok [.num (-1)] := by
  refine ⟨?_, by rfl, by rfl, by rfl⟩
  have hmod : modulo (.num 1) (.num (1/2))
      = .panic "runtime error: integer divide by zero" := by
    have h2 : ¬ ((1 : ℚ)/2 = 0) := by norm_num
    have ht : truncToInt ((1:ℚ)/2) = 0 := by norm_num [truncToInt]
    simp only [modulo]
    rw [if_neg h2, if_pos ht]
  show (eval 10 (.binop .mod (.lit (.num 1)) (.lit (.num (1/2)))) [Value.null] []).1
      = .panic "runtime error: integer divide by zero"
  have hstep : eval 10 (.binop .mod (.lit (.num 1)) (.lit (.num (1/2)))) [Value.null] []
      = (match applyBinaryOp .mod (.num 1) (.num (1/2)) with
         | .ok v => (Out.ok [v], ([] : VarMap))
         | .fail m => (Out.fail m, ([] : VarMap))
         | .panic m => (Out.panic m, ([] : VarMap))) := rfl
  rw [hstep]
  have : applyBinaryOp .mod (.num 1) (.num (1/2)) = modulo (.num 1) (.num (1/2)) := rfl
  rw [this, hmod]

/-- C7 amended: `and` and `or` do not short-circuit.  `evalBinaryOp`
always evaluates both operands before combining them, so whenever the left
operand evaluates cleanly and the right operand fails, the whole `and`/`or`
expression fails with the right operand's error — even when the left
operand's truthiness would already decide the result. -/
theorem c7_and_or_evaluate_right_operand (fuel : Nat) (l r : Expr)
    (cur : List Value) (vars v1 v2 : VarMap) (ls : List Value) (msg : String)
    (hl : eval fuel l cur vars = (.ok ls, v1))
    (hr : eval fuel r cur v1 = (.fail msg, v2)) :
    eval (fuel + 1) (.binop .and l r) cur vars = (.fail msg, v2)
  ∧ eval (fuel + 1) (.binop .or l r) cur vars = (.fail msg, v2) := by
  constructor <;> simp only [eval, hl, hr]

/-- Witness for `c7_and_or_evaluate_right_operand` at the claim's own
example `false and error(...)`. -/
theorem c7_and_or_evaluate_right_operand_witness :
    eval 3 (.binop .and (.lit (.bool false)) (.errorFn (.lit (.str "boom"))))
        [Value.null] [] = (.fail "boom", [])
  ∧ eval 3 (.binop .or (.lit (.bool false)) (.errorFn (.lit (.str "boom"))))
        [Value.null] [] = (.fail "boom", []) :=
  c7_and_or_evaluate_right_operand 2 (.lit (.bool false))
    (.errorFn (.lit (.str "boom"))) [Value.null] [] [] [] [.bool false] "boom"
    (by rfl) (by rfl)

/-- C10: for every binary operator expression, once both operands evaluate
without error, an empty result sequence on either side fails the whole
evaluation with "empty operand for OP", and otherwise only the first value
of each side is combined by `applyBinaryOp`. -/
theorem c10_empty_operand_or_first_values (fuel : Nat) (op : BOp) (l r : Expr)
    (cur : List Value) (vars v1 v2 : VarMap) (ls rs : List Value)
    (hl : eval fuel l cur vars = (.ok ls, v1))
    (hr : eval fuel r cur v1 = (.ok rs, v2)) :
    ((ls = [] ∨ rs = []) →
       eval (fuel + 1) (.binop op l r) cur vars
         = (.fail ("empty operand for " ++ op.sym), v2))
  ∧ (∀ x xs y ys, ls = x :: xs → rs = y :: ys →
       eval (fuel + 1) (.binop op l r) cur vars
         = (match applyBinaryOp op x y with
            | .ok v => (Out.ok [v], v2)
            | .fail m => (Out.fail m, v2)
            | .panic m => (Out.panic m, v2))) := by
  constructor
  · rintro (h | h) <;> subst h
    · simp only [eval, hl, hr]
    · simp only [eval, hl, hr]
      cases ls <;> rfl
  · intro x xs y ys hx hy
    subst hx; subst hy
    simp only [eval, hl, hr]

/-- Witness for `c10_empty_operand_or_first_values`: `empty + 1` fails
with the empty-operand error, while `2 == 2` combines the two first
values. -/
theorem c10_empty_operand_witness :
    eval 2 (.binop .add .emptyFn (.lit (.num 1))) [Value.null] []
      = (.fail "empty operand for +", [])
  ∧ eval 2 (.binop .eq (.lit (.num 2)) (.lit (.num 2))) [Value.null] []
      = (.ok [.bool true], []) := by
  constructor
  · exact (c10_empty_operand_or_first_values 1 .add .emptyFn (.lit (.num 1))
      [Value.null] [] [] [] [] [.num 1] rfl rfl).1 (Or.inl rfl)
  · have h := (c10_empty_operand_or_first_values 1 .eq (.lit (.num 2))
      (.lit (.num 2)) [Value.null] [] [] [] [.num 2] [.num 2] rfl rfl).2
      (.num 2) [] (.num 2) [] rfl rfl
    rw [h]; rfl

/-- The regular-path step of `evalDel`: `modified, err = deletePath(...)`
followed by an ignored error keeps `deletePath`'s result value, which is
`nil` on error. -/
def delStep (v p : Value) : Value :=
  match deletePathV v [p] with
  | .ok v' => v'
  | .error _ => .null

/-- C9 counterexample: `del` processes its supplied paths in the order
given, not in reverse: `del(.[0], .[1])` on `[10, 20, 30]` first removes
index 0 (leaving `[20, 30]`) and then index 1 of the shifted list (leaving
`[20]`) — not `[30]` as the reverse-order claim requires. -/
theorem c9_del_given_order_counterexample :
    run 10 (.delFn [.comma [.idx 0 (some .identity), .idx 1 (some .identity)]])
        (.arr [.num 10, .num 20, .num 30])
      = .ok [.arr [.num 20]]
  ∧ (Out.ok [Value.arr [Value.num 20]] ≠ Out.ok [Value.arr [Value.num 30]]) :=
  ⟨by rfl, by simp⟩

/-- C9 amended: `del` applies its flattened path arguments left to right in
the order supplied (so deleting an earlier array index shifts later
indices), `delpaths` (only) applies its supplied path list in reverse
order, and deleting a non-existent mapping key is a no-op. -/
theorem c9_del_forward_delpaths_reverse :
    (∀ (fuel : Nat) (i j : Int) (xs : List Value),
       run (fuel + 1)
           (.delFn [.comma [.idx i (some .identity), .idx j (some .identity)]])
           (.arr xs)
         = .ok [delStep (delStep (.arr xs) (.num (i : ℚ))) (.num (j : ℚ))])
  ∧ (∀ (fuel : Nat) (ps : List (List Value)) (input : Value),
       run (fuel + 2) (.delpathsFn (.lit (.arr (ps.map Value.arr)))) input
         = .ok [delpathsApply input (ps.map Value.arr).reverse])
  ∧ (∀ (m : List (String × Value)) (k : String), alistGet m k = none →
       deletePathV (.obj m) [.str k] = .ok (.obj m)) := by
  refine ⟨?_, ?_, ?_⟩
  · intro fuel i j xs
    show (eval (fuel + 1) _ [Value.arr xs] []).1 = _
    simp only [eval, evalDelNodes, evalDelArgs, flattenDelPaths, flattenDelList,
      evalDelPathList, isIteratorPath, extractPath, deepCopyV_eq, List.nil_append,
      List.append_nil, if_neg, Bool.false_eq_true, not_false_iff, if_false]
    cases h1 : deletePathV (.arr xs) [.num (i : ℚ)] with
    | ok m1 =>
        cases h2 : deletePathV m1 [.num (j : ℚ)] with
        | ok m2 => simp [delStep, h1, h2, evalDelPathList, evalDelArgs, evalDelNodes]
        | error e => simp [delStep, h1, h2, evalDelPathList, evalDelArgs, evalDelNodes]
    | error e =>
        cases h2 : deletePathV Value.null [.num (j : ℚ)] with
        | ok m2 => simp [delStep, h1, h2, evalDelPathList, evalDelArgs, evalDelNodes]
        | error e2 => simp [delStep, h1, h2, evalDelPathList, evalDelArgs, evalDelNodes]
  · intro fuel ps input
    show (eval (fuel + 2) _ [input] []).1 = _
    simp only [eval, evalDelpathsNodes, deepCopyV_eq, List.nil_append]
  · intro m k h
    have hdel : alistDel m k = m := by
      induction m with
      | nil => rfl
      | cons kv rest ih =>
          rw [alistGet] at h
          by_cases hk : kv.1 = k
          · rw [if_pos hk] at h
            exact absurd h (by simp)
          · rw [if_neg hk] at h
            rw [alistDel]
            rw [if_neg hk, ih h]
    show .ok (.obj (alistDel m k)) = Except.ok (Value.obj m)
    rw [hdel]

/-- Witness for `c9_del_forward_delpaths_reverse`: deleting the absent key
`"b"` from `{"a": 1}` is a no-op. -/
theorem c9_del_noop_witness :
    deletePathV (.obj [("a", Value.num 1)]) [.str "b"]
      = .ok (.obj [("a", Value.num 1)]) :=
  c9_del_forward_delpaths_reverse.2.2 [("a", Value.num 1)] "b" (by rfl)

/-- C6 counterexample: the values of the mapping built by inserting
`"a" ↦ 1` and then `"b" ↦ 2` may be emitted by `.[]` as `[2, 1]` — Go map
range order is unspecified — which is not the insertion order `[1, 2]`. -/
theorem c6_mapping_iteration_not_insertion_order :
    goMapIterPossible [("a", Value.num 1), ("b", Value.num 2)]
      [Value.num 2, Value.num 1]
  ∧ [Value.num 2, Value.num 1]
      ≠ ([("a", Value.num 1), ("b", Value.num 2)]).map Prod.snd :=
  ⟨⟨[("b", Value.num 2), ("a", Value.num 1)],
    List.Perm.swap ("a", Value.num 1) ("b", Value.num 2) [], rfl⟩, by simp⟩

/-- C6 amended: `.[]` on a list emits the elements in list order; on a
mapping it emits the values in an unspecified order (every permutation of
the entries is an admissible Go behaviour, and the model's own choice is
one of them); on `null` and every scalar it fails with a cannot-iterate
error. -/
theorem c6_iterator_order_characterization :
    (∀ (fuel : Nat) (xs : List Value) (vars : VarMap),
       eval (fuel + 1) (.iter none) [.arr xs] vars = (.ok xs, vars))
  ∧ (∀ (m p : List (String × Value)),
       List.Perm p m → goMapIterPossible m (p.map Prod.snd))
  ∧ (∀ m, iterateValue (.obj m) = .ok (m.map Prod.snd))
  ∧ (∀ m, goMapIterPossible m (m.map Prod.snd))
  ∧ (∀ (fuel : Nat) (vars : VarMap),
       eval (fuel + 1) (.iter none) [Value.null] vars
         = (.fail "cannot iterate over null", vars))
  ∧ (∀ (fuel : Nat) (vars : VarMap) (q : ℚ),
       eval (fuel + 1) (.iter none) [Value.num q] vars
         = (.fail "cannot iterate over float64", vars))
  ∧ (∀ (fuel : Nat) (vars : VarMap) (s : String),
       eval (fuel + 1) (.iter none) [Value.str s] vars
         = (.fail "cannot iterate over string", vars))
  ∧ (∀ (fuel : Nat) (vars : VarMap) (b : Bool),
       eval (fuel + 1) (.iter none) [Value.bool b] vars
         = (.fail "cannot iterate over bool", vars)) := by
  refine ⟨?_, ?_, ?_, ?_, ?_, ?_, ?_, ?_⟩
  · intro fuel xs vars
    simp [eval, iterAll, iterateValue]
  · intro m p hp
    exact ⟨p, hp, rfl⟩
  · intro m
    rfl
  · intro m
    exact ⟨m, List.Perm.refl m, rfl⟩
  · intro fuel vars; rfl
  · intro fuel vars q; rfl
  · intro fuel vars s; rfl
  · intro fuel vars b; rfl

/-- Witness for `c6_iterator_order_characterization`: a two-entry mapping
may emit its values in swapped order. -/
theorem c6_iterator_order_witness :
    goMapIterPossible [("x", Value.num 3), ("y", Value.num 4)]
      [Value.num 4, Value.num 3] :=
  c6_iterator_order_characterization.2.1
    [("x", Value.num 3), ("y", Value.num 4)]
    [("y", Value.num 4), ("x", Value.num 3)]
    (List.Perm.swap ("x", Value.num 3) ("y", Value.num 4) [])

/-!
## Heap model for the update operations (claim C2)

The pure evaluator above cannot express Go-level aliasing, so immutability
of the input is settled against an explicit heap model of the only
operations in the evaluator that write into containers: the
assignment-family pipeline `deepCopy` + `setPath`/`setPathRecursive` (used
by `evalAssign` and `evalSetpath`) and `deepCopy` + `deletePath` (used by
`evalDel` and `evalDelpaths`).  Every other operation in the evaluator
only allocates fresh containers and reads existing ones.

A heap is a list of objects addressed by index; Go interface values are
addresses (a `nil` interface is an address holding the null scalar).
Allocation appends; Go's in-place writes `m[k] = v`, `delete(m, k)` and
`arr[i] = v` become `writeH` at an address.  The theorems show that these
pipelines never write at any address that existed before the operation
(the old heap is a prefix of the new one), hence the denotation of the
input value is unchanged.
-/

/-- A scalar heap payload. -/
inductive HScalar : Type where
  | hnull : HScalar
  | hbool (b : Bool) : HScalar
  | hnum (q : ℚ) : HScalar
  | hstr (s : String) : HScalar
deriving Repr, DecidableEq

/-- A heap object: a scalar, a slice of addresses, or a string-keyed map of
addresses. -/
inductive HObj : Type where
  | scalar (s : HScalar) : HObj
  | harr (elems : List Nat) : HObj
  | hmap (entries : List (String × Nat)) : HObj
deriving Repr, DecidableEq

/-- The heap: object at address `a` is `h[a]`. -/
abbrev Heap := List HObj

/-- The addresses referenced by an object. -/
def HObj.refs : HObj → List Nat
  | .scalar _ => []
  | .harr es => es
  | .hmap kvs => kvs.map Prod.snd

/-- A heap is closed when every reference points inside the heap. -/
def closedHeap (h : Heap) : Prop :=
  ∀ o ∈ h, ∀ r ∈ o.refs, r < h.length

instance closedHeapDec (h : Heap) : Decidable (closedHeap h) := by
  unfold closedHeap
  infer_instance

/-- Allocation: append an object, returning its fresh address. -/
def allocH (h : Heap) (o : HObj) : Heap × Nat := (h ++ [o], h.length)

/-- Read the object at an address. -/
def readH (h : Heap) (a : Nat) : Option HObj := h[a]?

/-- In-place write at an address (Go's container mutation). -/
def writeH (h : Heap) (a : Nat) (o : HObj) : Heap := h.set a o

/-- Address-valued association-list lookup (Go's `m[k]` on the heap). -/
def alistGetN (es : List (String × Nat)) (k : String) : Option Nat :=
  match es with
  | [] => none
  | (k', v) :: rest => if k' = k then some v else alistGetN rest k

/-- Address-valued association-list update-or-insert. -/
def alistSetN (es : List (String × Nat)) (k : String) (a : Nat) :
    List (String × Nat) :=
  match es with
  | [] => [(k, a)]
  | (k', v') :: rest =>
      if k' = k then (k', a) :: rest else (k', v') :: alistSetN rest k a

/-- Address-valued association-list removal (Go's `delete(m, k)`). -/
def alistDelN (es : List (String × Nat)) (k : String) : List (String × Nat) :=
  match es with
  | [] => []
  | (k', v') :: rest =>
      if k' = k then rest else (k', v') :: alistDelN rest k

/-- Go's `m[k] = c` on the map object at address `a`. -/
def mapSetH (h : Heap) (a : Nat) (k : String) (c : Nat) : Heap :=
  match readH h a with
  | some (.hmap es) => writeH h a (.hmap (alistSetN es k c))
  | _ => h

/-- Go's `delete(m, k)` on the map object at address `a`. -/
def mapDelH (h : Heap) (a : Nat) (k : String) : Heap :=
  match readH h a with
  | some (.hmap es) => writeH h a (.hmap (alistDelN es k))
  | _ => h

/-- Go's `arr[i] = c` on the slice object at address `a`. -/
def arrSetH (h : Heap) (a : Nat) (i : Nat) (c : Nat) : Heap :=
  match readH h a with
  | some (.harr es) => writeH h a (.harr (es.set i c))
  | _ => h

mutual

/-- `deepCopy` on the heap.  (Go's `copyMap`/`copySlice` allocate the
result and then fill it entry by entry; the model copies the children
first and allocates the finished container, which produces the same
structure with writes to fresh addresses only.)  The fuel decreases at
every call; with adequate fuel it is never exhausted on a closed heap. -/
def deepCopyH : Nat → Heap → Nat → Heap × Nat
  | 0, h, a => (h, a)
  | fuel+1, h, a =>
      match readH h a with
      | some (.hmap es) =>
          let (h1, cs) := copyEntriesH fuel h es
          allocH h1 (.hmap cs)
      | some (.harr es) =>
          let (h1, cs) := copyElemsH fuel h es
          allocH h1 (.harr cs)
      | _ => (h, a)

/-- The element loop of `copySlice` on the heap. -/
def copyElemsH : Nat → Heap → List Nat → Heap × List Nat
  | 0, h, _ => (h, [])
  | _+1, h, [] => (h, [])
  | fuel+1, h, a :: rest =>
      let (h1, c) := deepCopyH fuel h a
      let (h2, cs) := copyElemsH fuel h1 rest
      (h2, c :: cs)

/-- The entry loop of `copyMap` on the heap. -/
def copyEntriesH : Nat → Heap → List (String × Nat) → Heap × List (String × Nat)
  | 0, h, _ => (h, [])
  | _+1, h, [] => (h, [])
  | fuel+1, h, (k, a) :: rest =>
      let (h1, c) := deepCopyH fuel h a
      let (h2, cs) := copyEntriesH fuel h1 rest
      (h2, (k, c) :: cs)

end

/-- A path entry as normalized by `extractPath`/`normalizePathElement`:
a string field or an integer index. -/
inductive PathElem : Type where
  | pfield (s : String) : PathElem
  | pidx (i : Int) : PathElem
deriving Repr, DecidableEq

/-- The `m, ok := value.(map); if !ok then m = make(...) else m = copyMap(m)`
step of `setPathRecursive`: the address returned is always that of a
freshly allocated map. -/
def freshMapFrom (fuel : Nat) (h : Heap) (a : Nat) : Heap × Nat :=
  match readH h a with
  | some (.hmap es) =>
      let (h', cs) := copyEntriesH fuel h es
      allocH h' (.hmap cs)
  | _ => allocH h (.hmap [])

/-- The corresponding `arr, ok := value.([]any)` step: a fresh slice. -/
def freshArrFrom (fuel : Nat) (h : Heap) (a : Nat) : Heap × Nat :=
  match readH h a with
  | some (.harr es) =>
      let (h', cs) := copyElemsH fuel h es
      allocH h' (.harr cs)
  | _ => allocH h (.harr [])

/-- `existing := m[k]` on the fresh copy; a missing key yields Go's `nil`
interface, modelled as a fresh null scalar. -/
def lookupOrNull (h : Heap) (am : Nat) (k : String) : Heap × Nat :=
  match readH h am with
  | some (.hmap es) =>
      match alistGetN es k with
      | some c => (h, c)
      | none => allocH h (.scalar .hnull)
  | _ => allocH h (.scalar .hnull)

/-- `for len(arr) <= idx { arr = append(arr, nil) }`: pad the element list
with null slots up to index `n`. -/
def extendSlots (h : Heap) (es : List Nat) (n : Nat) : Heap × List Nat :=
  if es.length ≤ n then
    let (h', nz) := allocH h (.scalar .hnull)
    (h', es ++ List.replicate (n + 1 - es.length) nz)
  else (h, es)

/-- The index-level body of `setPathRecursive`, on the fresh slice copy at
address `aa` with elements `es`: resolve a negative index (still-negative
reaches Go's `arr[idx]` panic, modelled as `none`), pad with `nil` slots,
write `nv` at the index or recurse into the existing element and write the
result back.  `spr` is the recursive `setPathRecursive` call. -/
def setPathIdxCore (spr : Heap → Nat → List PathElem → Nat → Heap × Option Nat)
    (h1 : Heap) (aa : Nat) (es : List Nat) (i : Int) (rest : List PathElem)
    (nv : Nat) : Heap × Option Nat :=
  if (if i < 0 then (es.length : Int) + i else i) < 0 then (h1, none)
  else
    match extendSlots h1 es (if i < 0 then (es.length : Int) + i else i).toNat with
    | (h2, es2) =>
      match rest with
      | [] =>
          (arrSetH (writeH h2 aa (.harr es2)) aa
            (if i < 0 then (es.length : Int) + i else i).toNat nv, some aa)
      | _ :: _ =>
          match spr (writeH h2 aa (.harr es2))
              (es2.getD (if i < 0 then (es.length : Int) + i else i).toNat 0)
              rest nv with
          | (h3, some updated) =>
              (arrSetH h3 aa (if i < 0 then (es.length : Int) + i else i).toNat
                updated, some aa)
          | (h3, none) => (h3, none)

/-- `setPathRecursive` on the heap.  At each level the existing container
is deep-copied (`copyMap`/`copySlice`) or freshly created when the value
has the wrong type; the write of the updated child (`m[k] = ...` /
`arr[idx] = ...`) hits only that fresh copy. -/
def setPathRecH : Nat → Heap → Nat → List PathElem → Nat → Heap × Option Nat
  | 0, h, _, _, _ => (h, none)
  | fuel+1, h, a, path, nv =>
    match path with
    | [] => (h, some nv)
    | .pfield k :: rest =>
        let (h1, am) := freshMapFrom fuel h a
        match rest with
        | [] => (mapSetH h1 am k nv, some am)
        | _ :: _ =>
            let (h2, ex) := lookupOrNull h1 am k
            match setPathRecH fuel h2 ex rest nv with
            | (h3, some updated) => (mapSetH h3 am k updated, some am)
            | (h3, none) => (h3, none)
    | .pidx i :: rest =>
        let (h1, aa) := freshArrFrom fuel h a
        match readH h1 aa with
        | some (.harr es) => setPathIdxCore (setPathRecH fuel) h1 aa es i rest nv
        | _ => (h1, none)

/-- `setPath` on the heap: a `nil` root is replaced by a fresh empty
container matching the first path entry, then `setPathRecursive` runs. -/
def setPathH (fuel : Nat) (h : Heap) (a : Nat) (path : List PathElem)
    (nv : Nat) : Heap × Option Nat :=
  match path with
  | [] => (h, some nv)
  | p :: _ =>
      let (h1, a1) :=
        match readH h a with
        | some (.scalar .hnull) =>
            match p with
            | .pfield _ => allocH h (.hmap [])
            | .pidx _ => allocH h (.harr [])
        | _ => (h, a)
      setPathRecH fuel h1 a1 path nv

/-- The last-level map branch of `deletePath`: `result := copyMap(m);
delete(result, key)`. -/
def delLastFieldCore (fuel : Nat) (h : Heap) (es : List (String × Nat))
    (k : String) : Heap × Nat :=
  (mapDelH
      (allocH (copyEntriesH fuel h es).1 (.hmap (copyEntriesH fuel h es).2)).1
      (allocH (copyEntriesH fuel h es).1 (.hmap (copyEntriesH fuel h es).2)).2 k,
   (allocH (copyEntriesH fuel h es).1 (.hmap (copyEntriesH fuel h es).2)).2)

/-- The last-level slice branch of `deletePath`: out-of-bounds is a no-op,
otherwise the element is dropped into a freshly allocated slice. -/
def delLastIdxCore (h : Heap) (a : Nat) (es : List Nat) (i : Int) : Heap × Nat :=
  if (if i < 0 then (es.length : Int) + i else i) < 0
      ∨ (es.length : Int) ≤ (if i < 0 then (es.length : Int) + i else i) then (h, a)
  else
    allocH h (.harr
      (es.take (if i < 0 then (es.length : Int) + i else i).toNat
        ++ es.drop ((if i < 0 then (es.length : Int) + i else i).toNat + 1)))

/-- The deeper map branch of `deletePath`: `result := copyMap(m)`, recurse
into the copied child when the key exists and write the result back into
the copy.  `dpr` is the recursive `deletePath` call. -/
def delDeepFieldCore (dpr : Heap → Nat → List PathElem → Heap × Nat)
    (fuel : Nat) (h : Heap) (es : List (String × Nat)) (k : String)
    (rest : List PathElem) : Heap × Nat :=
  match alistGetN (copyEntriesH fuel h es).2 k with
  | some child =>
      (mapSetH
          (dpr (allocH (copyEntriesH fuel h es).1
              (.hmap (copyEntriesH fuel h es).2)).1 child rest).1
          (allocH (copyEntriesH fuel h es).1
            (.hmap (copyEntriesH fuel h es).2)).2 k
          (dpr (allocH (copyEntriesH fuel h es).1
              (.hmap (copyEntriesH fuel h es).2)).1 child rest).2,
       (allocH (copyEntriesH fuel h es).1
         (.hmap (copyEntriesH fuel h es).2)).2)
  | none =>
      allocH (copyEntriesH fuel h es).1 (.hmap (copyEntriesH fuel h es).2)

/-- The deeper slice branch of `deletePath`: bounds-check, `copySlice`,
recurse into the copied element and write the result back into the copy. -/
def delDeepIdxCore (dpr : Heap → Nat → List PathElem → Heap × Nat)
    (fuel : Nat) (h : Heap) (a : Nat) (es : List Nat) (i : Int)
    (rest : List PathElem) : Heap × Nat :=
  if (if i < 0 then (es.length : Int) + i else i) < 0
      ∨ (es.length : Int) ≤ (if i < 0 then (es.length : Int) + i else i) then (h, a)
  else
    (arrSetH
        (dpr (allocH (copyElemsH fuel h es).1 (.harr (copyElemsH fuel h es).2)).1
          ((copyElemsH fuel h es).2.getD
            (if i < 0 then (es.length : Int) + i else i).toNat 0) rest).1
        (allocH (copyElemsH fuel h es).1 (.harr (copyElemsH fuel h es).2)).2
        (if i < 0 then (es.length : Int) + i else i).toNat
        (dpr (allocH (copyElemsH fuel h es).1 (.harr (copyElemsH fuel h es).2)).1
          ((copyElemsH fuel h es).2.getD
            (if i < 0 then (es.length : Int) + i else i).toNat 0) rest).2,
     (allocH (copyElemsH fuel h es).1 (.harr (copyElemsH fuel h es).2)).2)

/-- `deletePath` on the heap.  The empty path yields a fresh `nil`; at the
last level a map is `copyMap`ed and the key deleted from the copy, and a
slice entry is removed into a freshly allocated slice; deeper levels
deep-copy the container, recurse into the copied child and write the
result back into the fresh copy.  Bounds failures and type mismatches
return the value unchanged. -/
def deletePathH : Nat → Heap → Nat → List PathElem → Heap × Nat
  | 0, h, a, _ => (h, a)
  | fuel+1, h, a, path =>
    match path with
    | [] => allocH h (.scalar .hnull)
    | [p] =>
        match p with
        | .pfield k =>
            match readH h a with
            | some (.hmap es) => delLastFieldCore fuel h es k
            | _ => (h, a)
        | .pidx i =>
            match readH h a with
            | some (.harr es) => delLastIdxCore h a es i
            | _ => (h, a)
    | p :: rest =>
        match p with
        | .pfield k =>
            match readH h a with
            | some (.hmap es) =>
                delDeepFieldCore (deletePathH fuel) fuel h es k rest
            | _ => (h, a)
        | .pidx i =>
            match readH h a with
            | some (.harr es) =>
                delDeepIdxCore (deletePathH fuel) fuel h a es i rest
            | _ => (h, a)

/-- The value-update pipeline of `evalAssign`/`evalSetpath`:
`modified := deepCopy(node.Value); modified, _ = setPath(modified, path, newValue)`. -/
def assignUpdateH (fuel : Nat) (h : Heap) (root : Nat) (path : List PathElem)
    (nv : Nat) : Heap × Option Nat :=
  let (h1, c) := deepCopyH fuel h root
  setPathH fuel h1 c path nv

/-- The value-update pipeline of `evalDel`/`evalDelpaths`:
`modified := deepCopy(node.Value); modified, _ = deletePath(modified, path)`. -/
def deleteUpdateH (fuel : Nat) (h : Heap) (root : Nat) (path : List PathElem) :
    Heap × Nat :=
  let (h1, c) := deepCopyH fuel h root
  deletePathH fuel h1 c path

mutual

/-- Denotation of a heap address as a pure `Value` (fuel-bounded). -/
def denoteH : Nat → Heap → Nat → Option Value
  | 0, _, _ => none
  | fuel+1, h, a =>
      match readH h a with
      | some (.scalar .hnull) => some .null
      | some (.scalar (.hbool b)) => some (.bool b)
      | some (.scalar (.hnum q)) => some (.num q)
      | some (.scalar (.hstr s)) => some (.str s)
      | some (.harr es) => (denoteListH fuel h es).map Value.arr
      | some (.hmap kvs) => (denoteEntriesH fuel h kvs).map Value.obj
      | none => none

/-- Denotation of a list of addresses. -/
def denoteListH : Nat → Heap → List Nat → Option (List Value)
  | 0, _, _ => none
  | _+1, _, [] => some []
  | fuel+1, h, a :: rest =>
      match denoteH fuel h a, denoteListH fuel h rest with
      | some v, some vs => some (v :: vs)
      | _, _ => none

/-- Denotation of a list of keyed addresses. -/
def denoteEntriesH : Nat → Heap → List (String × Nat) →
    Option (List (String × Value))
  | 0, _, _ => none
  | _+1, _, [] => some []
  | fuel+1, h, (k, a) :: rest =>
      match denoteH fuel h a, denoteEntriesH fuel h rest with
      | some v, some vs => some ((k, v) :: vs)
      | _, _ => none

end

/-- `h'` extends `h`: the old heap is an unmodified prefix of the new one
(no pre-existing address was written). -/
def heapExt (h h' : Heap) : Prop := h'.take h.length = h

theorem heapExt_refl (h : Heap) : heapExt h h := List.take_length h

theorem heapExt_length_le {h h' : Heap} (he : heapExt h h') :
    h.length ≤ h'.length := by
  have hc := congrArg List.length he
  rw [List.length_take] at hc
  rcases Nat.le_total h.length h'.length with hle | hle
  · exact hle
  · rw [Nat.min_eq_right hle] at hc
    omega

theorem heapExt_trans {h1 h2 h3 : Heap} (a : heapExt h1 h2)
    (b : heapExt h2 h3) : heapExt h1 h3 := by
  have hl : h1.length ≤ h2.length := heapExt_length_le a
  show h3.take h1.length = h1
  calc h3.take h1.length = (h3.take h2.length).take h1.length := by
        rw [List.take_take, Nat.min_eq_left hl]
    _ = h2.take h1.length := by rw [b]
    _ = h1 := a

theorem heapExt_alloc (h : Heap) (o : HObj) : heapExt h (allocH h o).1 :=
  List.take_left h [o]

/-- Setting an index at or beyond `n` does not change the first `n`
elements. -/
theorem take_set_of_le {α : Type} (l : List α) (a n : Nat) (o : α)
    (hna : n ≤ a) : (l.set a o).take n = l.take n := by
  induction l generalizing a n with
  | nil => simp
  | cons x xs ih =>
      cases a with
      | zero =>
          have : n = 0 := Nat.le_zero.mp hna
          subst this
          simp
      | succ a' =>
          cases n with
          | zero => simp
          | succ n' =>
              simp only [List.set, List.take]
              rw [ih a' n' (by omega)]

theorem heapExt_write {h h' : Heap} (a : Nat) (o : HObj) (he : heapExt h h')
    (ha : h.length ≤ a) : heapExt h (writeH h' a o) := by
  show (h'.set a o).take h.length = h
  rw [take_set_of_le h' a h.length o ha]
  exact he

theorem readH_ext {h h' : Heap} (he : heapExt h h') {a : Nat}
    (ha : a < h.length) : readH h' a = readH h a := by
  show h'[a]? = h[a]?
  conv_rhs => rw [← he]
  rw [List.getElem?_take_of_lt ha]

theorem heapExt_mapSetH {h0 h : Heap} (a : Nat) (k : String) (c : Nat)
    (he : heapExt h0 h) (ha : h0.length ≤ a) : heapExt h0 (mapSetH h a k c) := by
  unfold mapSetH
  cases readH h a with
  | none => exact he
  | some o =>
      cases o with
      | scalar s => exact he
      | harr es => exact he
      | hmap es => exact heapExt_write a _ he ha

theorem heapExt_mapDelH {h0 h : Heap} (a : Nat) (k : String)
    (he : heapExt h0 h) (ha : h0.length ≤ a) : heapExt h0 (mapDelH h a k) := by
  unfold mapDelH
  cases readH h a with
  | none => exact he
  | some o =>
      cases o with
      | scalar s => exact he
      | harr es => exact he
      | hmap es => exact heapExt_write a _ he ha

theorem heapExt_arrSetH {h0 h : Heap} (a : Nat) (i c : Nat)
    (he : heapExt h0 h) (ha : h0.length ≤ a) : heapExt h0 (arrSetH h a i c) := by
  unfold arrSetH
  cases readH h a with
  | none => exact he
  | some o =>
      cases o with
      | scalar s => exact he
      | harr es => exact heapExt_write a _ he ha
      | hmap es => exact he

/-- The deep-copy family only allocates: the input heap is a preserved
prefix of the output heap. -/
theorem copy_ext (fuel : Nat) :
    (∀ h a, heapExt h (deepCopyH fuel h a).1)
  ∧ (∀ h as, heapExt h (copyElemsH fuel h as).1)
  ∧ (∀ h es, heapExt h (copyEntriesH fuel h es).1) := by
  induction fuel with
  | zero => exact ⟨fun h a => heapExt_refl h, fun h as => heapExt_refl h,
      fun h es => heapExt_refl h⟩
  | succ n ih =>
      refine ⟨?_, ?_, ?_⟩
      · intro h a
        show heapExt h (deepCopyH (n+1) h a).1
        unfold deepCopyH
        cases readH h a with
        | none => exact heapExt_refl h
        | some o =>
            cases o with
            | scalar s => exact heapExt_refl h
            | harr es =>
                exact heapExt_trans (ih.2.1 h es)
                  (heapExt_alloc (copyElemsH n h es).1 _)
            | hmap es =>
                exact heapExt_trans (ih.2.2 h es)
                  (heapExt_alloc (copyEntriesH n h es).1 _)
      · intro h as
        unfold copyElemsH
        cases as with
        | nil => exact heapExt_refl h
        | cons a rest =>
            exact heapExt_trans (ih.1 h a) (ih.2.1 (deepCopyH n h a).1 rest)
      · intro h es
        unfold copyEntriesH
        cases es with
        | nil => exact heapExt_refl h
        | cons kv rest =>
            cases kv with
            | mk k a =>
                exact heapExt_trans (ih.1 h a) (ih.2.2 (deepCopyH n h a).1 rest)

/-- `freshMapFrom` extends the heap and returns a fresh address. -/
theorem freshMapFrom_spec (fuel : Nat) (h : Heap) (a : Nat) :
    heapExt h (freshMapFrom fuel h a).1 ∧ h.length ≤ (freshMapFrom fuel h a).2 := by
  unfold freshMapFrom
  cases readH h a with
  | none => exact ⟨heapExt_alloc h _, Nat.le_refl _⟩
  | some o =>
      cases o with
      | scalar s => exact ⟨heapExt_alloc h _, Nat.le_refl _⟩
      | harr es => exact ⟨heapExt_alloc h _, Nat.le_refl _⟩
      | hmap es =>
          rcases hc : copyEntriesH fuel h es with ⟨h', cs⟩
          have he : heapExt h h' := by
            have := (copy_ext fuel).2.2 h es
            rw [hc] at this
            exact this
          simp only [hc]
          exact ⟨heapExt_trans he (heapExt_alloc h' _), heapExt_length_le he⟩

/-- `freshArrFrom` extends the heap and returns a fresh address. -/
theorem freshArrFrom_spec (fuel : Nat) (h : Heap) (a : Nat) :
    heapExt h (freshArrFrom fuel h a).1 ∧ h.length ≤ (freshArrFrom fuel h a).2 := by
  unfold freshArrFrom
  cases readH h a with
  | none => exact ⟨heapExt_alloc h _, Nat.le_refl _⟩
  | some o =>
      cases o with
      | scalar s => exact ⟨heapExt_alloc h _, Nat.le_refl _⟩
      | hmap es => exact ⟨heapExt_alloc h _, Nat.le_refl _⟩
      | harr es =>
          rcases hc : copyElemsH fuel h es with ⟨h', cs⟩
          have he : heapExt h h' := by
            have := (copy_ext fuel).2.1 h es
            rw [hc] at this
            exact this
          simp only [hc]
          exact ⟨heapExt_trans he (heapExt_alloc h' _), heapExt_length_le he⟩

/-- `lookupOrNull` extends the heap. -/
theorem lookupOrNull_ext (h : Heap) (am : Nat) (k : String) :
    heapExt h (lookupOrNull h am k).1 := by
  unfold lookupOrNull
  cases readH h am with
  | none => exact heapExt_alloc h _
  | some o =>
      cases o with
      | scalar s => exact heapExt_alloc h _
      | harr es => exact heapExt_alloc h _
      | hmap es =>
          show heapExt h (match alistGetN es k with
            | some c => (h, c)
            | none => allocH h (.scalar .hnull)).1
          cases alistGetN es k with
          | none => exact heapExt_alloc h _
          | some c => exact heapExt_refl h

/-- `extendSlots` extends the heap. -/
theorem extendSlots_ext (h : Heap) (es : List Nat) (n : Nat) :
    heapExt h (extendSlots h es n).1 := by
  unfold extendSlots
  split
  · exact heapExt_alloc h _
  · exact heapExt_refl h

/-- `setPathIdxCore` extends any heap that its starting heap extends,
provided the slice address is fresh relative to that heap and the
recursive call extends heaps. -/
theorem setPathIdxCore_ext (spr : Heap → Nat → List PathElem → Nat → Heap × Option Nat)
    (hspr : ∀ h' a' p' v', heapExt h' (spr h' a' p' v').1)
    (h h1 : Heap) (aa : Nat) (es : List Nat) (i : Int) (rest : List PathElem)
    (nv : Nat) (e1 : heapExt h h1) (b1 : h.length ≤ aa) :
    heapExt h (setPathIdxCore spr h1 aa es i rest nv).1 := by
  unfold setPathIdxCore
  by_cases hneg : (if i < 0 then (es.length : Int) + i else i) < 0
  · rw [if_pos hneg]
    exact e1
  · rw [if_neg hneg]
    rcases hx : extendSlots h1 es
        (if i < 0 then (es.length : Int) + i else i).toNat with ⟨h2, es2⟩
    have e2 : heapExt h1 h2 := by
      have hh := extendSlots_ext h1 es
          (if i < 0 then (es.length : Int) + i else i).toNat
      rw [hx] at hh
      exact hh
    have e2b : heapExt h (writeH h2 aa (.harr es2)) :=
      heapExt_write aa _ (heapExt_trans e1 e2) b1
    cases rest with
    | nil => exact heapExt_arrSetH aa _ nv e2b b1
    | cons r rrest =>
        show heapExt h (match spr (writeH h2 aa (.harr es2))
            (es2.getD (if i < 0 then (es.length : Int) + i else i).toNat 0)
            (r :: rrest) nv with
          | (h3, some updated) =>
              (arrSetH h3 aa (if i < 0 then (es.length : Int) + i else i).toNat
                updated, some aa)
          | (h3, none) => (h3, none)).1
        rcases hs : spr (writeH h2 aa (.harr es2))
            (es2.getD (if i < 0 then (es.length : Int) + i else i).toNat 0)
            (r :: rrest) nv with ⟨h3, u⟩
        have e3 : heapExt (writeH h2 aa (.harr es2)) h3 := by
          have hh := hspr (writeH h2 aa (.harr es2))
              (es2.getD (if i < 0 then (es.length : Int) + i else i).toNat 0)
              (r :: rrest) nv
          rw [hs] at hh
          exact hh
        cases u with
        | some updated =>
            exact heapExt_arrSetH aa _ updated (heapExt_trans e2b e3) b1
        | none => exact heapExt_trans e2b e3

/-- `setPathRecursive` never writes at a pre-existing address: the input
heap is a preserved prefix of the output heap. -/
theorem setPathRecH_ext (fuel : Nat) : ∀ (h : Heap) (a : Nat)
    (path : List PathElem) (nv : Nat),
    heapExt h (setPathRecH fuel h a path nv).1 := by
  induction fuel with
  | zero => intro h a path nv; exact heapExt_refl h
  | succ n ih =>
      intro h a path nv
      cases path with
      | nil => exact heapExt_refl h
      | cons p rest =>
        cases p with
        | pfield k =>
            rcases hm : freshMapFrom n h a with ⟨h1, am⟩
            have hspec := freshMapFrom_spec n h a
            rw [hm] at hspec
            obtain ⟨e1, b1⟩ := hspec
            cases rest with
            | nil =>
                show heapExt h (setPathRecH (n+1) h a [.pfield k] nv).1
                simp only [setPathRecH, hm]
                exact heapExt_mapSetH am k nv e1 b1
            | cons r rrest =>
                rcases hl : lookupOrNull h1 am k with ⟨h2, ex⟩
                have e2 : heapExt h1 h2 := by
                  have := lookupOrNull_ext h1 am k
                  rw [hl] at this
                  exact this
                rcases hs : setPathRecH n h2 ex (r :: rrest) nv with ⟨h3, u⟩
                have e3 : heapExt h2 h3 := by
                  have := ih h2 ex (r :: rrest) nv
                  rw [hs] at this
                  exact this
                have e13 : heapExt h h3 := heapExt_trans e1 (heapExt_trans e2 e3)
                show heapExt h (setPathRecH (n+1) h a (.pfield k :: r :: rrest) nv).1
                simp only [setPathRecH, hm, hl, hs]
                cases u with
                | some updated => exact heapExt_mapSetH am k updated e13 b1
                | none => exact e13
        | pidx i =>
            rcases ha' : freshArrFrom n h a with ⟨h1, aa⟩
            have hspec := freshArrFrom_spec n h a
            rw [ha'] at hspec
            obtain ⟨e1, b1⟩ := hspec
            show heapExt h (setPathRecH (n+1) h a (.pidx i :: rest) nv).1
            simp only [setPathRecH, ha']
            cases hr : readH h1 aa with
            | none => exact e1
            | some o =>
              cases o with
              | scalar s => exact e1
              | hmap es => exact e1
              | harr es =>
                  exact setPathIdxCore_ext (setPathRecH n) (fun h' a' p' v' => ih h' a' p' v')
                    h h1 aa es i rest nv e1 b1

/-- `setPath` never writes at a pre-existing address. -/
theorem setPathH_ext (fuel : Nat) (h : Heap) (a : Nat) (path : List PathElem)
    (nv : Nat) : heapExt h (setPathH fuel h a path nv).1 := by
  unfold setPathH
  cases path with
  | nil => exact heapExt_refl h
  | cons p rest =>
      cases hr : readH h a with
      | none => exact setPathRecH_ext fuel h a (p :: rest) nv
      | some o =>
          cases o with
          | harr es => exact setPathRecH_ext fuel h a (p :: rest) nv
          | hmap es => exact setPathRecH_ext fuel h a (p :: rest) nv
          | scalar sc =>
              cases sc with
              | hbool b => exact setPathRecH_ext fuel h a (p :: rest) nv
              | hnum q => exact setPathRecH_ext fuel h a (p :: rest) nv
              | hstr st => exact setPathRecH_ext fuel h a (p :: rest) nv
              | hnull =>
                  cases p with
                  | pfield k =>
                      exact heapExt_trans (heapExt_alloc h (.hmap []))
                        (setPathRecH_ext fuel (allocH h (.hmap [])).1
                          (allocH h (.hmap [])).2 (.pfield k :: rest) nv)
                  | pidx i =>
                      exact heapExt_trans (heapExt_alloc h (.harr []))
                        (setPathRecH_ext fuel (allocH h (.harr [])).1
                          (allocH h (.harr [])).2 (.pidx i :: rest) nv)

/-- `delLastFieldCore` extends the heap. -/
theorem delLastFieldCore_ext (fuel : Nat) (h : Heap) (es : List (String × Nat))
    (k : String) : heapExt h (delLastFieldCore fuel h es k).1 := by
  unfold delLastFieldCore
  rcases hc : copyEntriesH fuel h es with ⟨h1, cs⟩
  have e1 : heapExt h h1 := by
    have hh := (copy_ext fuel).2.2 h es
    rw [hc] at hh
    exact hh
  exact heapExt_mapDelH h1.length k
    (heapExt_trans e1 (heapExt_alloc h1 (.hmap cs))) (heapExt_length_le e1)

/-- `delLastIdxCore` extends the heap. -/
theorem delLastIdxCore_ext (h : Heap) (a : Nat) (es : List Nat) (i : Int) :
    heapExt h (delLastIdxCore h a es i).1 := by
  unfold delLastIdxCore
  split <;> first
    | exact heapExt_refl h
    | exact heapExt_alloc h _
    | (split <;> first
        | exact heapExt_refl h
        | exact heapExt_alloc h _)

/-- `delDeepFieldCore` extends the heap, given that the recursive call
does. -/
theorem delDeepFieldCore_ext (dpr : Heap → Nat → List PathElem → Heap × Nat)
    (hdpr : ∀ h' a' p', heapExt h' (dpr h' a' p').1)
    (fuel : Nat) (h : Heap) (es : List (String × Nat)) (k : String)
    (rest : List PathElem) :
    heapExt h (delDeepFieldCore dpr fuel h es k rest).1 := by
  unfold delDeepFieldCore
  rcases hc : copyEntriesH fuel h es with ⟨h1, cs⟩
  have e1 : heapExt h h1 := by
    have hh := (copy_ext fuel).2.2 h es
    rw [hc] at hh
    exact hh
  have e2 : heapExt h (allocH h1 (.hmap cs)).1 :=
    heapExt_trans e1 (heapExt_alloc h1 (.hmap cs))
  cases hga : alistGetN (h1, cs).2 k with
  | none => exact e2
  | some child =>
      have e3 : heapExt (allocH h1 (.hmap cs)).1
          (dpr (allocH h1 (.hmap cs)).1 child rest).1 :=
        hdpr (allocH h1 (.hmap cs)).1 child rest
      exact heapExt_mapSetH h1.length k _ (heapExt_trans e2 e3)
        (heapExt_length_le e1)

/-- `delDeepIdxCore` extends the heap, given that the recursive call
does. -/
theorem delDeepIdxCore_ext (dpr : Heap → Nat → List PathElem → Heap × Nat)
    (hdpr : ∀ h' a' p', heapExt h' (dpr h' a' p').1)
    (fuel : Nat) (h : Heap) (a : Nat) (es : List Nat) (i : Int)
    (rest : List PathElem) :
    heapExt h (delDeepIdxCore dpr fuel h a es i rest).1 := by
  unfold delDeepIdxCore
  by_cases hb : (if i < 0 then (es.length : Int) + i else i) < 0
      ∨ (es.length : Int) ≤ (if i < 0 then (es.length : Int) + i else i)
  · rw [if_pos hb]
    exact heapExt_refl h
  · rw [if_neg hb]
    rcases hc : copyElemsH fuel h es with ⟨h1, cs⟩
    have e1 : heapExt h h1 := by
      have hh := (copy_ext fuel).2.1 h es
      rw [hc] at hh
      exact hh
    have e2 : heapExt h (allocH h1 (.harr cs)).1 :=
      heapExt_trans e1 (heapExt_alloc h1 (.harr cs))
    have e3 : heapExt (allocH h1 (.harr cs)).1
        (dpr (allocH h1 (.harr cs)).1
          (cs.getD (if i < 0 then (es.length : Int) + i else i).toNat 0) rest).1 :=
      hdpr (allocH h1 (.harr cs)).1
        (cs.getD (if i < 0 then (es.length : Int) + i else i).toNat 0) rest
    exact heapExt_arrSetH h1.length _ _ (heapExt_trans e2 e3)
      (heapExt_length_le e1)

/-- `deletePath` never writes at a pre-existing address. -/
theorem deletePathH_ext (fuel : Nat) : ∀ (h : Heap) (a : Nat)
    (path : List PathElem), heapExt h (deletePathH fuel h a path).1 := by
  induction fuel with
  | zero => intro h a path; exact heapExt_refl h
  | succ n ih =>
      intro h a path
      cases path with
      | nil => exact heapExt_alloc h _
      | cons p rest =>
          cases rest with
          | nil =>
              cases p with
              | pfield k =>
                  simp only [deletePathH]
                  cases hr : readH h a with
                  | none => exact heapExt_refl h
                  | some o =>
                      cases o with
                      | scalar sc => exact heapExt_refl h
                      | harr es => exact heapExt_refl h
                      | hmap es => exact delLastFieldCore_ext n h es k
              | pidx i =>
                  simp only [deletePathH]
                  cases hr : readH h a with
                  | none => exact heapExt_refl h
                  | some o =>
                      cases o with
                      | scalar sc => exact heapExt_refl h
                      | hmap es => exact heapExt_refl h
                      | harr es => exact delLastIdxCore_ext h a es i
          | cons q qrest =>
              cases p with
              | pfield k =>
                  simp only [deletePathH]
                  cases hr : readH h a with
                  | none => exact heapExt_refl h
                  | some o =>
                      cases o with
                      | scalar sc => exact heapExt_refl h
                      | harr es => exact heapExt_refl h
                      | hmap es =>
                          exact delDeepFieldCore_ext (deletePathH n)
                            (fun h' a' p' => ih h' a' p') n h es k (q :: qrest)
              | pidx i =>
                  simp only [deletePathH]
                  cases hr : readH h a with
                  | none => exact heapExt_refl h
                  | some o =>
                      cases o with
                      | scalar sc => exact heapExt_refl h
                      | hmap es => exact heapExt_refl h
                      | harr es =>
                          exact delDeepIdxCore_ext (deletePathH n)
                            (fun h' a' p' => ih h' a' p') n h a es i (q :: qrest)

/-- The full assignment pipeline (`deepCopy` then `setPath`) never writes
at a pre-existing address. -/
theorem assignUpdateH_ext (fuel : Nat) (h : Heap) (root : Nat)
    (path : List PathElem) (nv : Nat) :
    heapExt h (assignUpdateH fuel h root path nv).1 := by
  unfold assignUpdateH
  rcases hc : deepCopyH fuel h root with ⟨h1, c⟩
  have e1 : heapExt h h1 := by
    have hh := (copy_ext fuel).1 h root
    rw [hc] at hh
    exact hh
  exact heapExt_trans e1 (setPathH_ext fuel h1 c path nv)

/-- The full deletion pipeline (`deepCopy` then `deletePath`) never writes
at a pre-existing address. -/
theorem deleteUpdateH_ext (fuel : Nat) (h : Heap) (root : Nat)
    (path : List PathElem) :
    heapExt h (deleteUpdateH fuel h root path).1 := by
  unfold deleteUpdateH
  rcases hc : deepCopyH fuel h root with ⟨h1, c⟩
  have e1 : heapExt h h1 := by
    have hh := (copy_ext fuel).1 h root
    rw [hc] at hh
    exact hh
  exact heapExt_trans e1 (deletePathH_ext fuel h1 c path)

/-- An address that reads an object locates that object in the heap. -/
theorem readH_mem {h : Heap} {a : Nat} {o : HObj} (hr : readH h a = some o) :
    o ∈ h := by
  obtain ⟨hlt, heq⟩ := List.getElem?_eq_some.mp hr
  exact heq ▸ List.getElem_mem hlt

/-- Heap extension preserves the denotation of every pre-existing address
of a closed heap, at every fuel. -/
theorem denote_ext (h h' : Heap) (hext : heapExt h h') (hcl : closedHeap h)
    (n : Nat) :
    (∀ a, a < h.length → denoteH n h' a = denoteH n h a)
  ∧ (∀ as : List Nat, (∀ a ∈ as, a < h.length) →
       denoteListH n h' as = denoteListH n h as)
  ∧ (∀ es : List (String × Nat), (∀ kv ∈ es, kv.2 < h.length) →
       denoteEntriesH n h' es = denoteEntriesH n h es) := by
  induction n with
  | zero => exact ⟨fun a ha => rfl, fun as hb => rfl, fun es hb => rfl⟩
  | succ m ih =>
      refine ⟨?_, ?_, ?_⟩
      · intro a ha
        have hrd : readH h' a = readH h a := readH_ext hext ha
        show denoteH (m+1) h' a = denoteH (m+1) h a
        simp only [denoteH, hrd]
        cases hr : readH h a with
        | none => rfl
        | some o =>
            have hmem : o ∈ h := readH_mem hr
            cases o with
            | scalar sc => cases sc <;> rfl
            | harr es =>
                have hb : ∀ r ∈ es, r < h.length := fun r hrm =>
                  hcl (.harr es) hmem r hrm
                show Option.map Value.arr (denoteListH m h' es)
                    = Option.map Value.arr (denoteListH m h es)
                rw [ih.2.1 es hb]
            | hmap kvs =>
                have hb : ∀ kv ∈ kvs, kv.2 < h.length := fun kv hkv =>
                  hcl (.hmap kvs) hmem kv.2 (List.mem_map_of_mem Prod.snd hkv)
                show Option.map Value.obj (denoteEntriesH m h' kvs)
                    = Option.map Value.obj (denoteEntriesH m h kvs)
                rw [ih.2.2 kvs hb]
      · intro as hb
        cases as with
        | nil => rfl
        | cons a rest =>
            show denoteListH (m+1) h' (a :: rest) = denoteListH (m+1) h (a :: rest)
            simp only [denoteListH]
            rw [ih.1 a (hb a (List.mem_cons_self a rest)),
              ih.2.1 rest (fun x hx => hb x (List.mem_cons_of_mem a hx))]
      · intro es hb
        cases es with
        | nil => rfl
        | cons kv rest =>
            cases kv with
            | mk k a =>
                show denoteEntriesH (m+1) h' ((k, a) :: rest)
                    = denoteEntriesH (m+1) h ((k, a) :: rest)
                simp only [denoteEntriesH]
                rw [ih.1 a (hb (k, a) (List.mem_cons_self (k, a) rest)),
                  ih.2.2 rest (fun x hx => hb x (List.mem_cons_of_mem (k, a) hx))]

/-- C2: the input value is never mutated.  The assignment-family pipeline
(`deepCopy` + `setPath`, used by `evalAssign` and `evalSetpath`) and the
deletion pipeline (`deepCopy` + `deletePath`, used by `evalDel` and
`evalDelpaths`) are the only evaluator operations that write into
containers, and on the heap model they never write at any pre-existing
address; consequently the denotation of every value that existed before
the operation — in particular the input document at any root — is exactly
the same afterwards, for every path and every new value (which may itself
alias the input). -/
theorem c2_update_preserves_input (fuel n : Nat) (h : Heap) (root a : Nat)
    (p : List PathElem) (nv : Nat) (hcl : closedHeap h) (ha : a < h.length) :
    denoteH n (assignUpdateH fuel h root p nv).1 a = denoteH n h a
  ∧ denoteH n (deleteUpdateH fuel h root p).1 a = denoteH n h a :=
  ⟨(denote_ext h (assignUpdateH fuel h root p nv).1
      (assignUpdateH_ext fuel h root p nv) hcl n).1 a ha,
   (denote_ext h (deleteUpdateH fuel h root p).1
      (deleteUpdateH_ext fuel h root p) hcl n).1 a ha⟩

/-- Witness for `c2_update_preserves_input` at the concrete heap holding
the document `{"x": 7}`: assigning through `.x` and deleting `.x` both
leave the original document's denotation untouched. -/
theorem c2_update_preserves_input_witness :
    closedHeap [HObj.hmap [("x", 1)], HObj.scalar (.hnum 7)]
  ∧ denoteH 5 (assignUpdateH 5 [HObj.hmap [("x", 1)], HObj.scalar (.hnum 7)]
      0 [.pfield "x"] 1).1 0
      = denoteH 5 [HObj.hmap [("x", 1)], HObj.scalar (.hnum 7)] 0
  ∧ denoteH 5 (deleteUpdateH 5 [HObj.hmap [("x", 1)], HObj.scalar (.hnum 7)]
      0 [.pfield "x"]).1 0
      = denoteH 5 [HObj.hmap [("x", 1)], HObj.scalar (.hnum 7)] 0
  ∧ denoteH 5 [HObj.hmap [("x", 1)], HObj.scalar (.hnum 7)] 0
      = some (Value.obj [("x", Value.num 7)]) := by
  refine ⟨by decide, ?_, ?_, by rfl⟩
  · exact (c2_update_preserves_input 5 5
      [HObj.hmap [("x", 1)], HObj.scalar (.hnum 7)] 0 0 [.pfield "x"] 1
      (by decide) (by decide)).1
  · exact (c2_update_preserves_input 5 5
      [HObj.hmap [("x", 1)], HObj.scalar (.hnum 7)] 0 0 [.pfield "x"] 1
      (by decide) (by decide)).2

end HQ
